import Mathlib

/-!
Verification of the geometry/DOM utility layer of a math-expression editor
(`src/editor-mathfield/utils.ts`), as a shallow embedding in Lean 4.

Pixel coordinates are modelled as rationals (ℚ).  DOM reads
(`getBoundingClientRect`, `querySelector`, computed styles) are modelled as
data stored in the `Mathfield` / `DomNode` structures.  Stateful code (the
atom-bounds cache, which the TypeScript mutates in place) is modelled by
explicit state passing: every cache-touching operation returns the updated
`Mathfield` next to its result.  JavaScript object aliasing that is
observable through the cache (in `getRangeBoundingRect`) is modelled
explicitly by tracking which cache entry the accumulator rectangle aliases
and writing every in-place mutation through to that entry.
-/

set_option maxHeartbeats 1000000

/-- Pixel rectangle, from the source `Rect` type in utils.ts. -/
structure Rect where
  top : ℚ
  bottom : ℚ
  left : ℚ
  right : ℚ
deriving DecidableEq, Repr

/-- Atom style; only the field this layer reads (`style.backgroundColor`).
`none` models an absent property. -/
structure Style where
  backgroundColor : Option String
deriving DecidableEq, Repr

/-- A positional command argument.  This layer only distinguishes string
arguments (`typeof arg === "string"`) from everything else (atom lists,
null, ...). -/
inductive Arg where
  | str (s : String)
  | other
deriving DecidableEq, Repr

/-- The branch slot of an atom inside its parent: either a named branch
(a string such as "numer") or an array cell `[row, col]`. -/
inductive BranchTag where
  | named (s : String)
  | cell (row col : Nat)
deriving DecidableEq, Repr

/-- The per-atom data this layer reads.  `id` and `args` are optional in the
source (`id?: string`, `args?`); `none` models `undefined`. -/
structure AtomData where
  id : Option String
  command : String
  args : Option (List Arg)
  parentBranch : BranchTag
  style : Style
  mode : String
  treeDepth : Int
deriving DecidableEq, Repr

/-- An atom of the expression tree.  The tree is acyclic and this layer
only ever walks the parent back-reference, so an atom is represented by
its own data together with the data of its ancestor chain, nearest parent
first (empty at the root).  `parent` is then a derived accessor. -/
structure Atom where
  data : AtomData
  ancestors : List AtomData
deriving DecidableEq, Repr

def Atom.parent (a : Atom) : Option Atom :=
  match a.ancestors with
  | [] => Option.none
  | d :: rest => some ⟨d, rest⟩

/-- The full chain of atom data starting at the atom itself. -/
def Atom.chain (a : Atom) : List AtomData := a.data :: a.ancestors

def Atom.id (a : Atom) : Option String := a.data.id

def Atom.command (a : Atom) : String := a.data.command

def Atom.args (a : Atom) : Option (List Arg) := a.data.args

def Atom.parentBranch (a : Atom) : BranchTag := a.data.parentBranch

def Atom.style (a : Atom) : Style := a.data.style

def Atom.mode (a : Atom) : String := a.data.mode

def Atom.treeDepth (a : Atom) : Int := a.data.treeDepth

/-- A rendered DOM element, holding exactly the readings this layer makes of
it: its client rect, the parsed `marginRight` computed style
(`parseInt` result, hence an integer), its tag name, whether its dataset
carries an `atomId` entry, whether its class list contains `ML__pstrut`,
and its element children. -/
inductive DomNode where
  | mk (rect : Rect) (marginRight : Int) (tagName : String)
       (hasAtomId : Bool) (isPstrut : Bool) (children : List DomNode)

def DomNode.rect : DomNode → Rect
  | .mk r _ _ _ _ _ => r

def DomNode.marginRight : DomNode → Int
  | .mk _ m _ _ _ _ => m

def DomNode.tagName : DomNode → String
  | .mk _ _ t _ _ _ => t

def DomNode.hasAtomId : DomNode → Bool
  | .mk _ _ _ h _ _ => h

def DomNode.isPstrut : DomNode → Bool
  | .mk _ _ _ _ p _ => p

def DomNode.children : DomNode → List DomNode
  | .mk _ _ _ _ _ c => c

/-- The mathfield state this layer touches.  `cache` is
`mathfield.atomBoundsCache` (an optional `Map`, modelled as an
insertion-ordered association list); `dom` is the
`field.querySelector('[data-atom-id=...]')` lookup; `fieldRect` is
`field.getBoundingClientRect()`; `actualWidth` is the raw
`field.getBoundingClientRect().width`; `modelAt` is `model.at` (which may
return `undefined`); `getAtoms` is
`model.getAtoms(range, includeChildren := true)`; `selection` is
`model.selection.ranges`; `serialize` is the external `Atom.serialize`
with default mode "math". -/
structure Mathfield where
  cache : Option (List (String × Rect))
  dom : String → Option DomNode
  fieldRect : Rect
  scrollLeft : ℚ
  offsetWidth : ℚ
  actualWidth : ℚ
  modelAt : Int → Option Atom
  getAtoms : Int → Int → List Atom
  selection : List (Int × Int)
  serialize : Atom → String

/-! ### Map operations (JavaScript `Map` semantics on association lists) -/

def cacheGet : List (String × Rect) → String → Option Rect
  | [], _ => none
  | (k0, v0) :: rest, k => if k0 = k then some v0 else cacheGet rest k

def cacheSet : List (String × Rect) → String → Rect → List (String × Rect)
  | [], k, v => [(k, v)]
  | (k0, v0) :: rest, k, v =>
      if k0 = k then (k0, v) :: rest else (k0, v0) :: cacheSet rest k v

def cacheDel : List (String × Rect) → String → List (String × Rect)
  | [], _ => []
  | (k0, v0) :: rest, k =>
      if k0 = k then cacheDel rest k else (k0, v0) :: cacheDel rest k

/-- The cache entry for key `k`, or `none` when the cache is absent or has
no such key. -/
def cacheEntry (mf : Mathfield) (k : String) : Option Rect :=
  match mf.cache with
  | some c => cacheGet c k
  | none => none

/-! ### Origin validation (utils.ts lines 208-220) -/

/-- The `OriginValidator` option type.  Its declaration lives outside this
repository slice (`public/options`); the three recognized values are taken
from the code of `validateOrigin`.  `other` is modelled from the spec:
an unrecognized validator value ("reject-all (unrecognized mode)"),
possible at runtime despite the declared union type. -/
inductive OriginValidator where
  | none
  | sameOrigin
  | func (f : String → Bool)
  | other

/-- Translation of `validateOrigin(origin, originValidator)`.
`windowOrigin` is the global `window.origin`; the empty string models a
falsy (undeterminable) own origin. -/
def validateOrigin (origin : String) (originValidator : OriginValidator)
    (windowOrigin : String) : Bool :=
  if origin = "*" then true
  else match originValidator with
    | .none => true
    | .sameOrigin => decide (windowOrigin = "" ∨ origin = windowOrigin)
    | .func f => f origin
    | .other => false

/-- Direct rendering of the specification text for the origin validator
(section 4.8), used to compare against the code translation: wildcard or
disabled validator accepts; same-origin mode accepts when the caller has no
determinable origin or on exact match; a predicate delegates; anything else
rejects. -/
def validateOriginSpec (origin : String) (originValidator : OriginValidator)
    (windowOrigin : String) : Bool :=
  if origin = "*" then true
  else match originValidator with
    | .none => true
    | .sameOrigin => decide (windowOrigin = "" ∨ origin = windowOrigin)
    | .func f => f origin
    | .other => false

/-! ### Scroll adjustment (utils.ts lines 61-76) -/

/-- Translation of `adjustForScrolling(mathfield, rect, scaleFactor)`. -/
def adjustForScrolling (mathfield : Mathfield) (rect : Option Rect)
    (scaleFactor : ℚ) : Option Rect :=
  match rect with
  | none => none
  | some rect =>
    let fieldRect := mathfield.fieldRect
    let w := rect.right - rect.left
    let h := rect.bottom - rect.top
    let left : Int := ⌈rect.left - fieldRect.left + mathfield.scrollLeft * scaleFactor⌉
    let top : Int := ⌈rect.top - fieldRect.top⌉
    some { left := (left : ℚ), right := (left : ℚ) + w,
           top := (top : ℚ), bottom := (top : ℚ) + h }

/-! ### Branch keys (utils.ts lines 51-59) -/

/-- Translation of `branchId(atom)`.  For a non-string branch tag the
source interpolates `atom.parentBranch![0]` twice:
`` `-${tag[0]}/${tag[0]}` ``. -/
def branchId (atom : Atom) : String :=
  match atom.parent with
  | none => "root"
  | some p =>
    let base := match p.id with
      | some s => s
      | none => ""
    base ++ (match atom.parentBranch with
      | .named s => "-" ++ s
      | .cell row _col => "-" ++ toString row ++ "/" ++ toString row)

/-! ### JavaScript number semantics for the scale factor
(utils.ts lines 159-168) -/

/-- A JavaScript `number` as needed by the scale-factor computation:
NaN, the two infinities, or a finite value. -/
inductive JSNum where
  | nan
  | posInf
  | negInf
  | fin (q : ℚ)
deriving DecidableEq, Repr

/-- JavaScript division: `0/0` is NaN, `x/0` for nonzero `x` is a signed
infinity, otherwise exact division. -/
def jsDiv (a b : ℚ) : JSNum :=
  if b = 0 then
    if a = 0 then .nan
    else if 0 < a then .posInf
    else .negInf
  else .fin (a / b)

def JSNum.isNaN : JSNum → Bool
  | .nan => true
  | _ => false

def JSNum.isFin : JSNum → Bool
  | .fin _ => true
  | _ => false

/-- The scale-factor computation of `getRangeBounds` (steps 1-3 of the
source): `actualWidth = Math.floor(field.getBoundingClientRect().width)`,
`scaleFactor = actualWidth / offsetWidth`, then
`scaleFactor = isNaN(scaleFactor) ? 1 : scaleFactor`. -/
def computeScaleFactor (actualWidthRaw offsetWidth : ℚ) : JSNum :=
  let actualWidth : ℚ := (⌊actualWidthRaw⌋ : Int)
  let s := jsDiv actualWidth offsetWidth
  if s.isNaN then .fin 1 else s

/-! ### Node bounds resolver (utils.ts lines 78-105) -/

/-- The rectangle union step used all over this layer: min of lefts/tops,
max of rights/bottoms. -/
def rectUnion (a b : Rect) : Rect :=
  { top := min a.top b.top, bottom := max a.bottom b.bottom,
    left := min a.left b.left, right := max a.right b.right }

mutual

/-- Translation of `getNodeBounds(node)`: start from the element box with
a 1px inward top adjustment and a right edge compensated by the right
margin, then union in every child that is tagged with an atom id and is
not a `ML__pstrut` spacer; elements with no children and `SVG` elements
are not recursed into. -/
def getNodeBounds : DomNode → Rect
  | DomNode.mk rect marginRight tagName _ _ children =>
    let result : Rect :=
      { top := rect.top - 1, bottom := rect.bottom,
        left := rect.left, right := rect.right - 1 + (marginRight : ℚ) }
    if children.isEmpty ∨ tagName.toUpper = "SVG" then result
    else getNodeBoundsChildren result children

/-- The child-accumulation loop of `getNodeBounds`. -/
def getNodeBoundsChildren : Rect → List DomNode → Rect
  | acc, [] => acc
  | acc, child :: rest =>
    let acc' :=
      if child.hasAtomId ∧ ¬child.isPstrut then rectUnion acc (getNodeBounds child)
      else acc
    getNodeBoundsChildren acc' rest

end

/-! ### Bounds cache lookup (utils.ts lines 107-118) -/

/-- True when a JavaScript string-or-undefined value is falsy
(`undefined` or the empty string); `if (!atom.id)` tests this. -/
def strFalsy : Option String → Bool
  | none => true
  | some s => s = ""

/-- Translation of `getAtomBounds(mathfield, atom)`.  The cache mutation
performed through `mathfield.atomBoundsCache` is returned as the second
component.  Note that on a hit the source returns the cached object itself,
and on a successful miss it returns the very object it just stored; callers
that mutate the returned rectangle therefore write through to the cache
(see `grbStep`). -/
def getAtomBounds (mf : Mathfield) (atom : Atom) : Option Rect × Mathfield :=
  match atom.id with
  | none => (none, mf)
  | some i =>
    if i = "" then (none, mf)
    else
      let cached : Option Rect := cacheEntry mf i
      match cached with
      | some r => (some r, mf)
      | none =>
        match mf.dom i with
        | some node =>
          let r := getNodeBounds node
          (some r, { mf with cache := mf.cache.map (fun c => cacheSet c i r) })
        | none =>
          (none, { mf with cache := mf.cache.map (fun c => cacheDel c i) })

/-! ### Whole-range bounding box (utils.ts lines 120-141) -/

/-- The offsets visited by `for (let i = start; i <= end; i++)`. -/
def rangeIndices (start endOff : Int) : List Int :=
  (List.range (endOff + 1 - start).toNat).map (fun k => start + (k : Int))

/-- Loop state of `getRangeBoundingRect`: the accumulator rectangle
(`result`), the cache key the accumulator object aliases (the source
mutates `result` in place, and on the first hit `result` IS the cached
object), and the mathfield. -/
structure GrbState where
  result : Option Rect
  aliasId : Option String
  mf : Mathfield

/-- One iteration of the `getRangeBoundingRect` loop at offset `i`.
`model.at(i)` returning `undefined` is an abnormal termination
(`atom.id` would throw), modelled as `Except.error`.  When the accumulator
exists and is mutated in place, the mutation is written through to the
aliased cache entry. -/
def grbStep (st : GrbState) (i : Int) : Except Unit GrbState :=
  match st.mf.modelAt i with
  | none => .error ()
  | some atom =>
    let (bounds, mf1) := getAtomBounds st.mf atom
    match bounds with
    | none => .ok { st with mf := mf1 }
    | some b =>
      match st.result with
      | none =>
        .ok { result := some b,
              aliasId := if mf1.cache.isSome then atom.id else none,
              mf := mf1 }
      | some r =>
        let u := rectUnion r b
        let mf2 :=
          match st.aliasId with
          | some j => { mf1 with cache := mf1.cache.map (fun c => cacheSet c j u) }
          | none => mf1
        .ok { result := some u, aliasId := st.aliasId, mf := mf2 }

def grbLoop (st : GrbState) : List Int → Except Unit GrbState
  | [] => .ok st
  | i :: rest =>
    match grbStep st i with
    | .error e => .error e
    | .ok st' => grbLoop st' rest

/-- Translation of `getRangeBoundingRect(mf, range)` over explicit state. -/
def getRangeBoundingRect (mf : Mathfield) (start endOff : Int) :
    Except Unit (Rect × Mathfield) :=
  match grbLoop ⟨none, none, mf⟩ (rangeIndices start endOff) with
  | .error e => .error e
  | .ok st =>
    .ok (st.result.getD { top := 0, bottom := 0, left := 0, right := 0 }, st.mf)

/-! ### Per-branch range bounds and selection bounds
(utils.ts lines 147-206) -/

/-- True when a JavaScript string-or-undefined is truthy
(`atom.style.backgroundColor` test). -/
def strTruthy : Option String → Bool
  | none => false
  | some s => s ≠ ""

/-- `Map.set` on the insertion-ordered branch map of `getRangeBounds`. -/
def rmapSet : List (String × Rect) → String → Rect → List (String × Rect)
  | [], k, v => [(k, v)]
  | (k0, v0) :: rest, k, v =>
      if k0 = k then (k0, v) :: rest else (k0, v0) :: rmapSet rest k v

def rmapGet : List (String × Rect) → String → Option Rect
  | [], _ => none
  | (k0, v0) :: rest, k => if k0 = k then some v0 else rmapGet rest k

/-- The per-atom body of the `getRangeBounds` loop.  The merged rectangle
is built as a fresh object (no aliasing into the cache here). -/
def grbsStep (excludeBg : Bool) (scale : ℚ)
    (acc : List (String × Rect) × Mathfield) (atom : Atom) :
    List (String × Rect) × Mathfield :=
  let (rects, mf) := acc
  if excludeBg ∧ strTruthy atom.style.backgroundColor then (rects, mf)
  else
    let (b, mf1) := getAtomBounds mf atom
    match adjustForScrolling mf1 b scale with
    | none => (rects, mf1)
    | some bounds =>
      let id := branchId atom
      match rmapGet rects id with
      | some r => (rmapSet rects id (rectUnion r bounds), mf1)
      | none => (rmapSet rects id bounds, mf1)

/-- Translation of `getRangeBounds(mathfield, range, options)`.  A
non-finite scale factor would make every adjusted coordinate non-finite;
such states (layout width 0 with a nonzero rendered width) are outside
normal operation and are modelled as `none`. -/
def getRangeBounds (mf : Mathfield) (start endOff : Int) (excludeBg : Bool) :
    Option (List Rect × Mathfield) :=
  match computeScaleFactor mf.actualWidth mf.offsetWidth with
  | .fin scale =>
    let (rects, mf') :=
      (mf.getAtoms start endOff).foldl (grbsStep excludeBg scale) ([], mf)
    some (rects.map Prod.snd, mf')
  | _ => none

/-- One step of the `reduce` in `getSelectionBounds`. -/
def selStep (excludeBg : Bool) (acc : Option (List Rect × Mathfield))
    (r : Int × Int) : Option (List Rect × Mathfield) :=
  match acc with
  | none => none
  | some (rects, m) =>
    match getRangeBounds m r.1 r.2 excludeBg with
    | none => none
    | some (rects', m') => some (rects ++ rects', m')

/-- Translation of `getSelectionBounds(mathfield, options)`: concatenate
the per-branch rectangle lists of every selection range, threading the
mathfield state. -/
def getSelectionBounds (mf : Mathfield) (excludeBg : Bool) :
    Option (List Rect × Mathfield) :=
  mf.selection.foldl (selStep excludeBg) (some ([], mf))

/-! ### Element info lookup (utils.ts lines 240-299) -/

/-- `DOMRect`-style rectangle as built by `getElementInfo`:
`new DOMRect(left, top, width, height)`. -/
structure DOMRectQ where
  x : ℚ
  y : ℚ
  width : ℚ
  height : ℚ
deriving DecidableEq, Repr

/-- The `ElementInfo` result.  `data` is the key/value object, in JavaScript
insertion order, with `none` values for bare keys (`data[key] = undefined`);
the empty list models the object never having been created. -/
structure ElementInfo where
  bounds : Option DOMRectQ
  depth : Int
  style : Style
  data : List (String × Option String)
  id : Option String
  latex : Option String
deriving DecidableEq, Repr

/-- The first positional argument when it is a string
(`a.args && typeof a.args[0] === "string"`). -/
def firstArgStrD (dta : AtomData) : Option String :=
  match dta.args with
  | some (Arg.str s :: _) => some s
  | _ => none

def firstArgStr (a : Atom) : Option String := firstArgStrD a.data

/-- JavaScript object property write: overwrite in place, append new keys. -/
def objSet : List (String × Option String) → String → Option String →
    List (String × Option String)
  | [], k, v => [(k, v)]
  | (k0, v0) :: rest, k, v =>
      if k0 = k then (k0, v) :: rest else (k0, v0) :: objSet rest k v

/-- `String.split(",")` on a character list, splitting at every comma and
keeping empty pieces. -/
def splitComma : List Char → List (List Char)
  | [] => [[]]
  | x :: rest =>
    match splitComma rest with
    | [] => [[]]
    | cur :: done =>
      if x = ',' then [] :: cur :: done else (x :: cur) :: done

/-- The whitespace characters relevant to `String.trim` here (the inputs
of this layer contain no exotic Unicode whitespace). -/
def isWS (c : Char) : Bool := c = ' ' ∨ c = '\t' ∨ c = '\n' ∨ c = '\r'

/-- JavaScript `String.trim()`. -/
def jsTrim (l : List Char) : List Char :=
  ((l.dropWhile isWS).reverse.dropWhile isWS).reverse

/-- JavaScript `String.replace(/ /g, "-")`. -/
def spaceToHyphen (l : List Char) : List Char :=
  l.map (fun c => if c = ' ' then '-' else c)

/-- Model of the leftmost match of the regular expression
`([^=]+)=(.+$)` against one comma-separated entry, returning the two
capture groups.  (Entries are assumed newline-free, which holds for every
input considered here; with that assumption the leftmost match skips any
leading `=` characters, takes the key up to the next `=`, and requires a
nonempty remainder as the value.) -/
def matchKV (entry : List Char) : Option (List Char × List Char) :=
  let rest := entry.dropWhile (fun c => c = '=')
  let key := rest.takeWhile (fun c => c ≠ '=')
  match rest.dropWhile (fun c => c ≠ '=') with
  | [] => none
  | _ :: tail =>
    if key ≠ [] ∧ tail ≠ [] then some (key, tail) else none

/-- The entry loop of the `\htmlData` parsing in `getElementInfo`: split
the argument on commas; a `key=value` entry stores the value under the
trimmed, space-to-hyphen-normalized key; any other entry stores
`undefined` under the normalized whole entry; empty keys are skipped. -/
def parseHtmlData (data0 : List (String × Option String)) (s : String) :
    List (String × Option String) :=
  (splitComma s.toList).foldl
    (fun d entry =>
      match matchKV entry with
      | some (k, v) =>
        let key := (spaceToHyphen (jsTrim k)).asString
        if key ≠ "" then objSet d key (some v.asString) else d
      | none =>
        let key := (spaceToHyphen (jsTrim entry)).asString
        if key ≠ "" then objSet d key Option.none else d)
    data0

/-- The ancestor walk of `getElementInfo` (the `while (a)` loop) over a
data chain, accumulating the custom-data object and the first
`\htmlId`/`\cssId` argument. -/
def infoWalkChain : List AtomData → List (String × Option String) →
    Option String → List (String × Option String) × Option String
  | [], d, i => (d, i)
  | dta :: rest, d, i =>
    let d' :=
      if dta.command = "\\htmlData" then
        match firstArgStrD dta with
        | some s => parseHtmlData d s
        | none => d
      else d
    let i' :=
      if (dta.command = "\\htmlId" ∨ dta.command = "\\cssId") ∧ i = Option.none then
        match firstArgStrD dta with
        | some s => some s
        | none => i
      else i
    infoWalkChain rest d' i'

def infoWalk (o : Option Atom) (d : List (String × Option String))
    (i : Option String) : List (String × Option String) × Option String :=
  match o with
  | none => (d, i)
  | some a => infoWalkChain a.chain d i

/-- Translation of `getElementInfo(mf, offset)`; threads the cache state
mutated by the `getAtomBounds` call. -/
def getElementInfo (mfOpt : Option Mathfield) (offset : Int) :
    Option ElementInfo × Option Mathfield :=
  match mfOpt with
  | none => (none, none)
  | some mf =>
    match mf.modelAt offset with
    | none => (none, some mf)
    | some atom =>
      let (b, mf') := getAtomBounds mf atom
      let bounds := b.map (fun r =>
        DOMRectQ.mk r.left r.top (r.right - r.left) (r.bottom - r.top))
      let (data, id) := infoWalk (some atom) [] none
      let latex :=
        if atom.mode = "math" ∨ atom.mode = "text" then some (mf'.serialize atom)
        else none
      (some { bounds := bounds, depth := atom.treeDepth - 2,
              style := atom.style, data := data, id := id, latex := latex },
       some mf')

/-! ### Hyperlink lookup (utils.ts lines 301-312) -/

/-- The `while (a)` loop of `getHref` over a data chain.  On an `\href`
atom the source reads `a.args[0]` with no guard on `a.args` being present:
an `\href` atom whose argument list is absent makes the read throw,
modelled as `Except.error`. -/
def getHrefChain : List AtomData → Except Unit String
  | [] => .ok ""
  | dta :: rest =>
    if dta.command = "\\href" then
      match dta.args with
      | none => .error ()
      | some args =>
        match args with
        | Arg.str s :: _ => .ok s
        | _ => getHrefChain rest
    else getHrefChain rest

def getHrefAux (o : Option Atom) : Except Unit String :=
  match o with
  | none => .ok ""
  | some a => getHrefChain a.chain

/-- Translation of `getHref(mf, offset)`. -/
def getHref (mf : Mathfield) (offset : Int) : Except Unit String :=
  getHrefAux (mf.modelAt offset)

/-- Direct rendering of the specification text for the hyperlink lookup
(section 4.7): walk the ancestor chain, inclusive, and return the first
`\href` argument that is a string, the empty string when none exists. -/
def getHrefSpecChain : List AtomData → String
  | [] => ""
  | dta :: rest =>
    if dta.command = "\\href" then
      match firstArgStrD dta with
      | some s => s
      | none => getHrefSpecChain rest
    else getHrefSpecChain rest

def getHrefSpec (o : Option Atom) : String :=
  match o with
  | none => ""
  | some a => getHrefSpecChain a.chain

/-- Chain condition for normal operation: every `\href` atom on the chain
carries a (possibly empty) argument list. -/
def hrefArgsOkChain : List AtomData → Bool
  | [] => true
  | dta :: rest => (dta.command ≠ "\\href" ∨ dta.args.isSome) ∧ hrefArgsOkChain rest

def hrefArgsOk (o : Option Atom) : Bool :=
  match o with
  | none => true
  | some a => hrefArgsOkChain a.chain

/-! ## Derived notions used by the theorems -/

/-- The effective cache key of an atom: its id unless that id is falsy. -/
def effId (a : Atom) : Option String :=
  match a.data.id with
  | none => Option.none
  | some s => if s = "" then Option.none else some s

/-- The effective cache key of the atom at offset `i`. -/
def effIdAt (mf : Mathfield) (i : Int) : Option String :=
  (mf.modelAt i).bind effId

/-- The bounds of the atom at offset `i`, queried against a fixed state. -/
def atomBoundsAt (mf : Mathfield) (i : Int) : Option Rect :=
  match mf.modelAt i with
  | none => Option.none
  | some a => (getAtomBounds mf a).1

/-- Accumulate one optional rectangle into an optional union. -/
def unionStep (acc : Option Rect) (b : Option Rect) : Option Rect :=
  match b with
  | none => acc
  | some b =>
    match acc with
    | none => some b
    | some r => some (rectUnion r b)

/-- The union of all present rectangles in a list, `none` when all are
absent. -/
def unionOfBounds (l : List (Option Rect)) : Option Rect :=
  l.foldl unionStep Option.none

/-- The custom-data object accumulated over a whole ancestor chain, in walk
order (atom first, root last); later commands overwrite earlier ones on
equal keys. -/
def htmlDataChain : List AtomData → List (String × Option String) →
    List (String × Option String)
  | [], d => d
  | dta :: rest, d =>
    htmlDataChain rest
      (if dta.command = "\\htmlData" then
        match firstArgStrD dta with
        | some s => parseHtmlData d s
        | none => d
      else d)

/-! ## Concrete fixtures used by witnesses and counterexamples -/

/-! Concrete fixture used by several witnesses: a mathfield with a cached
rectangle for atom `a`, DOM nodes for atoms `a` and `b`, and a two-atom
model. -/

def nodeA : DomNode := DomNode.mk ⟨1, 1, 0, 2⟩ 0 "SPAN" true false []

def nodeB : DomNode := DomNode.mk ⟨1, 2, 0, 3⟩ 0 "SPAN" true false []

def atomA : Atom :=
  ⟨⟨some "a", "", Option.none, .named "body", ⟨Option.none⟩, "math", 2⟩, []⟩

def atomB : Atom :=
  ⟨⟨some "b", "", Option.none, .named "body", ⟨Option.none⟩, "math", 2⟩, []⟩

def mfX : Mathfield where
  cache := some [("a", ⟨0, 1, 0, 1⟩)]
  dom := fun s => if s = "a" then some nodeA else if s = "b" then some nodeB else Option.none
  fieldRect := ⟨0, 10, 0, 10⟩
  scrollLeft := 0
  offsetWidth := 10
  actualWidth := 10
  modelAt := fun i => if i = 0 then some atomA else if i = 1 then some atomB else Option.none
  getAtoms := fun _ _ => [atomA, atomB]
  selection := [(0, 1)]
  serialize := fun _ => "x"

/-! Concrete fixture for the href witnesses: a leaf atom inside an `\href`
atom whose first argument is the string "https://e.x"; an intermediate
`\href` level carries a non-string first argument and is skipped. -/

def hrefOuterData : AtomData :=
  ⟨Option.none, "\\href", some [Arg.str "https://e.x"], .named "body",
    ⟨Option.none⟩, "math", 1⟩

def hrefMidData : AtomData :=
  ⟨Option.none, "\\href", some [Arg.other], .named "body",
    ⟨Option.none⟩, "math", 2⟩

def atomHrefLeaf : Atom :=
  ⟨⟨Option.none, "\\mathit", Option.none, .named "body",
    ⟨Option.none⟩, "math", 3⟩, [hrefMidData, hrefOuterData]⟩

def mfHref : Mathfield :=
  { mfX with modelAt := fun i => if i = 0 then some atomHrefLeaf else Option.none }

/-! Fixture for the cache-mutation analysis: both atoms have cached
rectangles and a present DOM node, so the range query performs only cache
hits and no DOM lookup can fail. -/

def mfY : Mathfield :=
  { mfX with cache := some [("a", ⟨0, 1, 0, 1⟩), ("b", ⟨1, 2, 1, 2⟩)] }

/-- The mathfield state after `getRangeBoundingRect(mfY, [0, 1])`. -/
def mfYAfter : Mathfield :=
  match getRangeBoundingRect mfY 0 1 with
  | .ok (_, m) => m
  | .error _ => mfY

/-! Fixture for the custom-data lookup: an atom carrying an `\htmlData`
command with argument "k=1" whose parent carries an `\htmlData` command
with argument "k=2". -/

def dataInnerK : AtomData :=
  ⟨Option.none, "\\htmlData", some [Arg.str "k=1"], .named "body",
    ⟨Option.none⟩, "math", 3⟩

def dataOuterK : AtomData :=
  ⟨Option.none, "\\htmlData", some [Arg.str "k=2"], .named "body",
    ⟨Option.none⟩, "math", 2⟩

def atomK : Atom := ⟨dataInnerK, [dataOuterK]⟩

def mfK : Mathfield :=
  { mfX with modelAt := fun i => if i = 0 then some atomK else Option.none }

/-! ## Claim theorems -/

/-- Claim C1: `validateOrigin` follows the rules in order: wildcard origin
or validator "none" accepts; same-origin mode accepts exactly when the own
origin is undeterminable or matches; a predicate validator delegates; every
remaining validator value rejects.  The last conjunct compares the code
translation with the direct rendering of the specification text. -/
theorem validateOrigin_follows_rules :
    (∀ v w, validateOrigin "*" v w = true) ∧
    (∀ o w, validateOrigin o OriginValidator.none w = true) ∧
    (∀ o w, o ≠ "*" →
      (validateOrigin o OriginValidator.sameOrigin w = true ↔ (w = "" ∨ o = w))) ∧
    (∀ o w f, o ≠ "*" → validateOrigin o (OriginValidator.func f) w = f o) ∧
    (∀ o w, o ≠ "*" → validateOrigin o OriginValidator.other w = false) ∧
    (∀ o v w, validateOrigin o v w = validateOriginSpec o v w) := by
  refine ⟨?_, ?_, ?_, ?_, ?_, ?_⟩
  · intro v w; simp [validateOrigin]
  · intro o w; by_cases h : o = "*" <;> simp [validateOrigin, h]
  · intro o w h; simp [validateOrigin, h]
  · intro o w f h; simp [validateOrigin, h]
  · intro o w h; simp [validateOrigin, h]
  · intro o v w; rfl

/-- Witness for C1 at the concrete inputs of the spec test vector. -/
theorem validateOrigin_follows_rules_witness :
    validateOrigin "https://x" OriginValidator.none "" = true ∧
    (validateOrigin "https://x" OriginValidator.sameOrigin "https://y" = true ↔
      ("https://y" = "" ∨ "https://x" = "https://y")) :=
  ⟨validateOrigin_follows_rules.2.1 "https://x" "",
   validateOrigin_follows_rules.2.2.1 "https://x" "https://y" (by decide)⟩

/-- Claim C5: `adjustForScrolling` maps `null` to `null` and otherwise
returns a rectangle whose left and top are the ceiled field-local
coordinates and whose width and height equal those of the input. -/
theorem adjustForScrolling_spec :
    (∀ mf s, adjustForScrolling mf Option.none s = Option.none) ∧
    (∀ (mf : Mathfield) (s : ℚ) (r : Rect), ∃ res,
      adjustForScrolling mf (some r) s = some res ∧
      res.left = ((⌈r.left - mf.fieldRect.left + mf.scrollLeft * s⌉ : Int) : ℚ) ∧
      res.top = ((⌈r.top - mf.fieldRect.top⌉ : Int) : ℚ) ∧
      res.right - res.left = r.right - r.left ∧
      res.bottom - res.top = r.bottom - r.top) := by
  refine ⟨fun _ _ => rfl, fun mf s r => ⟨_, rfl, rfl, rfl, by ring, by ring⟩⟩

/-- Claim C6: the scale factor of the range bounds aggregator is the
floored actual width divided by the layout width, normalized to `1`
whenever the division is NaN; in particular `0 / 0` yields exactly `1`. -/
theorem computeScaleFactor_spec :
    (∀ a w : ℚ, (jsDiv ((⌊a⌋ : Int) : ℚ) w).isNaN = true →
      computeScaleFactor a w = .fin 1) ∧
    (∀ a w : ℚ, (jsDiv ((⌊a⌋ : Int) : ℚ) w).isNaN = false →
      computeScaleFactor a w = jsDiv ((⌊a⌋ : Int) : ℚ) w) ∧
    computeScaleFactor 0 0 = .fin 1 := by
  refine ⟨fun a w h => ?_, fun a w h => ?_, by decide⟩
  · simp only [computeScaleFactor, h]; rfl
  · simp only [computeScaleFactor, h]; rfl

/-- Witness for C6: the NaN guard at `actualWidth = 0, layoutWidth = 0`
and an ordinary division. -/
theorem computeScaleFactor_spec_witness :
    computeScaleFactor 0 0 = .fin 1 ∧
    computeScaleFactor 4 2 = jsDiv ((⌊(4 : ℚ)⌋ : Int) : ℚ) 2 :=
  ⟨computeScaleFactor_spec.1 0 0 (by decide),
   computeScaleFactor_spec.2.1 4 2 (by decide)⟩

/-- Claim C10: the branch grouping key is `"root"` for parentless atoms,
the parent id joined with the branch name for string tags, and the parent
id joined with the first tag component repeated twice,
`tag0/tag0`, for array-cell tags. -/
theorem branchId_spec : ∀ atom : Atom,
    (atom.parent = Option.none → branchId atom = "root") ∧
    (∀ p s, atom.parent = some p → atom.parentBranch = .named s →
      branchId atom = (p.id.getD "") ++ "-" ++ s) ∧
    (∀ p row col, atom.parent = some p → atom.parentBranch = .cell row col →
      branchId atom =
        (p.id.getD "") ++ "-" ++ toString row ++ "/" ++ toString row) := by
  intro atom
  refine ⟨fun h => ?_, fun p s hp hb => ?_, fun p row col hp hb => ?_⟩
  · simp [branchId, h]
  · cases hpid : p.id <;>
      simp [branchId, hp, hb, hpid, Option.getD, String.append_assoc]
  · cases hpid : p.id <;>
      simp [branchId, hp, hb, hpid, Option.getD, String.append_assoc]

/-- Witness for C10 on a concrete two-atom tree with an array-cell tag. -/
theorem branchId_spec_witness :
    branchId ⟨⟨some "c", "", Option.none, .cell 3 5, ⟨Option.none⟩, "math", 3⟩,
        [⟨some "p7", "", Option.none, .named "body", ⟨Option.none⟩, "math", 2⟩]⟩ =
      ((some "p7" : Option String).getD "") ++ "-" ++ toString 3 ++ "/" ++ toString 3 :=
  (branchId_spec _).2.2
    ⟨⟨some "p7", "", Option.none, .named "body", ⟨Option.none⟩, "math", 2⟩, []⟩
    3 5 rfl rfl

/-- Claim C2: `getAtomBounds` returns `null` for atoms without an
identifier; on a cache hit it returns the cached rectangle untouched and
independently of the DOM; on a miss with a DOM node it computes, stores and
returns the node bounds; on a miss without a DOM node it deletes any stale
entry and returns `null`. -/
theorem getAtomBounds_spec : ∀ (mf : Mathfield) (atom : Atom),
    (atom.id = Option.none → getAtomBounds mf atom = (Option.none, mf)) ∧
    (∀ i c r, atom.id = some i → i ≠ "" → mf.cache = some c →
      cacheGet c i = some r →
      ∀ d, getAtomBounds { mf with dom := d } atom =
        (some r, { mf with dom := d })) ∧
    (∀ i c node, atom.id = some i → i ≠ "" → mf.cache = some c →
      cacheGet c i = Option.none → mf.dom i = some node →
      getAtomBounds mf atom =
        (some (getNodeBounds node),
         { mf with cache := some (cacheSet c i (getNodeBounds node)) })) ∧
    (∀ i c, atom.id = some i → i ≠ "" → mf.cache = some c →
      cacheGet c i = Option.none → mf.dom i = Option.none →
      getAtomBounds mf atom =
        (Option.none, { mf with cache := some (cacheDel c i) })) := by
  intro mf atom
  refine ⟨fun h => ?_, fun i c r hi hne hc hg d => ?_,
          fun i c node hi hne hc hg hd => ?_, fun i c hi hne hc hg hd => ?_⟩
  · simp [getAtomBounds, h]
  · simp [getAtomBounds, cacheEntry, hi, hne, hc, hg]
  · simp [getAtomBounds, cacheEntry, hi, hne, hc, hg, hd]
  · simp [getAtomBounds, cacheEntry, hi, hne, hc, hg, hd]

/-- Witness for C2: a cache hit on `a` and a storing miss on `b` in the
fixture mathfield. -/
theorem getAtomBounds_spec_witness :
    (mfX.cache = some [("a", ⟨0, 1, 0, 1⟩)] ∧
      cacheGet [("a", ⟨0, 1, 0, 1⟩)] "a" = some ⟨0, 1, 0, 1⟩ ∧
      getAtomBounds { mfX with dom := mfX.dom } atomA =
        (some ⟨0, 1, 0, 1⟩, { mfX with dom := mfX.dom })) ∧
    (mfX.dom "b" = some nodeB ∧
      getAtomBounds mfX atomB =
        (some (getNodeBounds nodeB),
         { mfX with
            cache := some (cacheSet [("a", ⟨0, 1, 0, 1⟩)] "b" (getNodeBounds nodeB)) })) :=
  ⟨⟨rfl, rfl,
    (getAtomBounds_spec mfX atomA).2.1 "a" [("a", ⟨0, 1, 0, 1⟩)] ⟨0, 1, 0, 1⟩
      rfl (by decide) rfl rfl mfX.dom⟩,
   ⟨rfl,
    (getAtomBounds_spec mfX atomB).2.2.1 "b" [("a", ⟨0, 1, 0, 1⟩)] nodeB
      rfl (by decide) rfl (by decide) rfl⟩⟩

/-- The `getHrefChain` walk returns, without error, exactly the value
described by the spec walk, provided every `\href` datum on the chain
carries an argument list. -/
theorem getHrefChain_ok : ∀ l : List AtomData, hrefArgsOkChain l = true →
    getHrefChain l = .ok (getHrefSpecChain l)
  | [], _ => rfl
  | dta :: rest, h => by
    have hrec := getHrefChain_ok rest
    simp only [hrefArgsOkChain, Bool.and_eq_true, decide_eq_true_eq] at h
    by_cases hc : dta.command = "\\href"
    · rcases h with ⟨h1, h2⟩
      rcases h1 with h1 | h1
      · exact absurd hc h1
      · match hargs : dta.args with
        | none => rw [hargs] at h1; simp at h1
        | some (Arg.str s :: args) =>
          simp [getHrefChain, getHrefSpecChain, hc, hargs, firstArgStrD]
        | some [] =>
          simp [getHrefChain, getHrefSpecChain, hc, hargs, firstArgStrD, hrec h2]
        | some (Arg.other :: args) =>
          simp [getHrefChain, getHrefSpecChain, hc, hargs, firstArgStrD, hrec h2]
    · rcases h with ⟨h1, h2⟩
      simp [getHrefChain, getHrefSpecChain, hc, hrec h2]

/-- Claim C9: `getHref` walks the chain from the atom at the offset toward
the root, returns the first `\href` argument that is a string — skipping
`\href` atoms whose first argument is not a string — and returns the empty
string when no such atom exists.  The chain condition rules out the
unguarded `a.args[0]` read throwing (see the C4 theorem for that read). -/
theorem getHref_spec : ∀ (mf : Mathfield) (off : Int),
    hrefArgsOk (mf.modelAt off) = true →
    getHref mf off = .ok (getHrefSpec (mf.modelAt off)) := by
  intro mf off h
  match hm : mf.modelAt off with
  | none => simp [getHref, getHrefAux, getHrefSpec, hm]
  | some a =>
    have h' : hrefArgsOkChain a.chain = true := by
      simpa [hrefArgsOk, hm] using h
    simpa [getHref, getHrefAux, getHrefSpec, hm] using getHrefChain_ok a.chain h'

/-- Witness for C9: the walk skips the `\href` with a non-string argument
and returns the outer `\href` argument. -/
theorem getHref_spec_witness :
    hrefArgsOk (mfHref.modelAt 0) = true ∧
    getHref mfHref 0 = .ok (getHrefSpec (mfHref.modelAt 0)) :=
  ⟨by decide, getHref_spec mfHref 0 (by decide)⟩

/-- The custom-data component of the info walk ignores the id
accumulator. -/
theorem infoWalkChain_fst : ∀ (l : List AtomData)
    (d : List (String × Option String)) (i : Option String),
    (infoWalkChain l d i).1 = htmlDataChain l d
  | [], _, _ => rfl
  | dta :: rest, d, i => by
    simp only [infoWalkChain, htmlDataChain]
    exact infoWalkChain_fst rest _ _

/-- Claim C8, amended: `getElementInfo` returns the key/value data merged
over ALL enclosing `\htmlData` commands on the ancestor chain (not only the
nearest one), processed from the atom outward so that commands nearer the
root overwrite same-key entries of nearer commands; each command's first
string argument is split on commas into key=value or bare-key tokens, keys
are trimmed and have spaces replaced by hyphens, empty keys are skipped,
and later entries within the same command overwrite earlier ones; parsing
"a=1, b , c=2" yields exactly a ↦ "1", b ↦ undefined, c ↦ "2". -/
theorem getElementInfo_data_spec :
    (∀ (mf : Mathfield) (off : Int) (atom : Atom), mf.modelAt off = some atom →
      ∃ info mf', getElementInfo (some mf) off = (some info, some mf') ∧
        info.data = htmlDataChain atom.chain []) ∧
    parseHtmlData [] "a=1, b , c=2" =
      [("a", some "1"), ("b", Option.none), ("c", some "2")] := by
  constructor
  · intro mf off atom hm
    refine ⟨{ bounds := ((getAtomBounds mf atom).1).map (fun r =>
                DOMRectQ.mk r.left r.top (r.right - r.left) (r.bottom - r.top)),
              depth := atom.treeDepth - 2, style := atom.style,
              data := (infoWalk (some atom) [] Option.none).1,
              id := (infoWalk (some atom) [] Option.none).2,
              latex := if atom.mode = "math" ∨ atom.mode = "text"
                then some (((getAtomBounds mf atom).2).serialize atom)
                else Option.none },
      (getAtomBounds mf atom).2, ?_, ?_⟩
    · simp only [getElementInfo, hm]
    · simpa [infoWalk] using infoWalkChain_fst atom.chain [] Option.none
  · decide

/-- Witness for the amended C8 on the concrete two-command fixture. -/
theorem getElementInfo_data_spec_witness :
    mfK.modelAt 0 = some atomK ∧
    ∃ info mf', getElementInfo (some mfK) 0 = (some info, some mf') ∧
      info.data = htmlDataChain atomK.chain [] :=
  ⟨rfl, getElementInfo_data_spec.1 mfK 0 atomK rfl⟩

/-- Counterexample to C8 as stated: with an `\htmlData` command with
argument "k=1" on the atom and another with argument "k=2" on its parent,
the returned data maps k to "2" — the parsed data of the OUTER command —
whereas the parsed data of the nearest enclosing command maps k to "1".
The returned object is therefore not the data of the nearest enclosing
custom-data command. -/
theorem getElementInfo_nearest_counterexample :
    (match (getElementInfo (some mfK) 0).1 with
      | some info => info.data
      | none => []) = [("k", some "2")] ∧
    parseHtmlData [] "k=1" = [("k", some "1")] ∧
    (some "2" : Option String) ≠ some "1" := by
  refine ⟨?_, by decide, by decide⟩
  decide

/-- Claim C3 analysis: the claim — a cached rectangle value is unchanged by
bounds queries until invalidated by a failed DOM lookup — is violated by the
code.  `getRangeBoundingRect` aliases its accumulator to the first cached
rectangle object and mutates it in place; after a range query over two
cached atoms, the cache entry of the first atom holds the union of both
rectangles although every DOM lookup would have succeeded (both nodes are
present) and no entry was invalidated.  A subsequent `getAtomBounds` on the
same atom therefore returns a different rectangle than before the query. -/
theorem getRangeBoundingRect_mutates_cache :
    cacheEntry mfY "a" = some ⟨0, 1, 0, 1⟩ ∧
    (getAtomBounds mfY atomA).1 = some ⟨0, 1, 0, 1⟩ ∧
    (mfY.dom "a").isSome = true ∧
    (mfY.dom "b").isSome = true ∧
    (match getRangeBoundingRect mfY 0 1 with
      | .ok _ => true
      | .error _ => false) = true ∧
    cacheEntry mfYAfter "a" = some ⟨0, 2, 0, 2⟩ ∧
    (getAtomBounds mfYAfter atomA).1 = some ⟨0, 2, 0, 2⟩ := by
  refine ⟨by decide, by decide, ?_, ?_, by decide, by decide, by decide⟩
  · rfl
  · rfl

/-- `getAtomBounds` changes at most the cache of the mathfield. -/
theorem getAtomBounds_state (mf : Mathfield) (a : Atom) :
    ∃ c', (getAtomBounds mf a).2 = { mf with cache := c' } := by
  unfold getAtomBounds
  dsimp only
  (repeat' split) <;> exact ⟨_, rfl⟩

/-- `grbStep` succeeds whenever the offset resolves to an atom, and changes
at most the cache. -/
theorem grbStep_ok (st : GrbState) (i : Int) (a : Atom)
    (ha : st.mf.modelAt i = some a) :
    ∃ st', grbStep st i = .ok st' ∧ ∃ c', st'.mf = { st.mf with cache := c' } := by
  obtain ⟨res, alid, m⟩ := st
  dsimp only at ha ⊢
  obtain ⟨c0, h0⟩ := getAtomBounds_state m a
  unfold grbStep
  dsimp only
  rw [ha]
  dsimp only
  rw [h0]
  (repeat' split) <;> exact ⟨_, rfl, _, rfl⟩

/-- `grbLoop` succeeds whenever every visited offset resolves to an atom. -/
theorem grbLoop_ok : ∀ (l : List Int) (st : GrbState),
    (∀ i ∈ l, (st.mf.modelAt i).isSome = true) →
    ∃ st', grbLoop st l = .ok st'
  | [], st, _ => ⟨st, rfl⟩
  | i :: rest, st, h => by
    obtain ⟨a, ha⟩ := Option.isSome_iff_exists.mp (h i (by simp))
    obtain ⟨st1, hstep, c', hc'⟩ := grbStep_ok st i a ha
    have hrest : ∀ j ∈ rest, (st1.mf.modelAt j).isSome = true := by
      intro j hj
      have hmm : st1.mf.modelAt = st.mf.modelAt := by rw [hc']
      rw [hmm]
      exact h j (by simp [hj])
    obtain ⟨st', hloop⟩ := grbLoop_ok rest st1 hrest
    exact ⟨st', by simp [grbLoop, hstep, hloop]⟩

/-- The fold of `getRangeBounds` changes at most the cache. -/
theorem grbsFold_state : ∀ (atoms : List Atom) (eb : Bool) (sc : ℚ)
    (rects : List (String × Rect)) (m : Mathfield),
    ∃ rs c', atoms.foldl (grbsStep eb sc) (rects, m) = (rs, { m with cache := c' })
  | [], _, _, rects, m => ⟨rects, m.cache, rfl⟩
  | a :: atoms, eb, sc, rects, m => by
    obtain ⟨c0, h0⟩ := getAtomBounds_state m a
    have hstep : ∃ rs1 c1, grbsStep eb sc (rects, m) a = (rs1, { m with cache := c1 }) := by
      unfold grbsStep
      dsimp only
      rcases hb : getAtomBounds m a with ⟨bounds, mf1⟩
      have hm1 : mf1 = { m with cache := c0 } := by rw [← h0, hb]
      dsimp only
      (repeat' split) <;>
        first
          | exact ⟨_, m.cache, rfl⟩
          | exact ⟨_, _, by rw [hm1]⟩
    obtain ⟨rs1, c1, h1⟩ := hstep
    obtain ⟨rs, c', hrec⟩ := grbsFold_state atoms eb sc rs1 { m with cache := c1 }
    exact ⟨rs, c', by simp only [List.foldl_cons, h1, hrec]⟩

/-- `getRangeBounds` succeeds whenever the scale factor is finite, and
changes at most the cache. -/
theorem getRangeBounds_some (m : Mathfield) (s e : Int) (eb : Bool)
    (h : (computeScaleFactor m.actualWidth m.offsetWidth).isFin = true) :
    ∃ out c', getRangeBounds m s e eb = some out ∧ out.2 = { m with cache := c' } := by
  unfold getRangeBounds
  match hcs : computeScaleFactor m.actualWidth m.offsetWidth with
  | .nan | .posInf | .negInf => rw [hcs] at h; simp [JSNum.isFin] at h
  | .fin q =>
    obtain ⟨rs, c', hfold⟩ := grbsFold_state (m.getAtoms s e) eb q [] m
    exact ⟨(rs.map Prod.snd, { m with cache := c' }), c', by simp [hcs, hfold]⟩

/-- The selection fold succeeds whenever the scale factor is finite. -/
theorem selFold_some : ∀ (ranges : List (Int × Int)) (eb : Bool)
    (rects : List Rect) (m : Mathfield),
    (computeScaleFactor m.actualWidth m.offsetWidth).isFin = true →
    ∃ out c', ranges.foldl (selStep eb) (some (rects, m)) = some out ∧
      out.2 = { m with cache := c' }
  | [], _, rects, m, _ => ⟨(rects, m), m.cache, rfl, rfl⟩
  | r :: ranges, eb, rects, m, h => by
    obtain ⟨out1, c1, h1, h1'⟩ := getRangeBounds_some m r.1 r.2 eb h
    have hout1 : out1 = (out1.1, { m with cache := c1 }) := Prod.ext rfl h1'
    have hstep : selStep eb (some (rects, m)) r =
        some (rects ++ out1.1, { m with cache := c1 }) := by
      unfold selStep
      dsimp only
      rw [h1, hout1]
    obtain ⟨out, c', hrec, hrec'⟩ :=
      selFold_some ranges eb (rects ++ out1.1) { m with cache := c1 } h
    exact ⟨out, c', by simp only [List.foldl_cons, hstep, hrec], hrec'⟩

/-- Claim C4: the layer signals absence by sentinel values instead of
throwing.  Every operation is a total function of this embedding;
the conjuncts spell out the sentinel results (null rectangle, undefined
info, empty string) and the success of the two loop-based queries under
normal operation.  The one abnormal termination point is made explicit:
`getHref` reads the first argument of an `\href` atom without any guard on
the argument list being present, so an `\href` atom with an absent
argument list is the sole input class on which the walk faults
(`Except.error` in this embedding, a thrown TypeError in JavaScript). -/
theorem utils_no_throw :
    (∀ (mf : Mathfield) (s : ℚ), adjustForScrolling mf Option.none s = Option.none) ∧
    (∀ (mf : Mathfield) (atom : Atom), atom.id = Option.none →
      getAtomBounds mf atom = (Option.none, mf)) ∧
    (∀ off : Int, getElementInfo Option.none off = (Option.none, Option.none)) ∧
    (∀ (mf : Mathfield) (off : Int), mf.modelAt off = Option.none →
      getElementInfo (some mf) off = (Option.none, some mf)) ∧
    (∀ (mf : Mathfield) (s e : Int),
      (∀ i ∈ rangeIndices s e, (mf.modelAt i).isSome = true) →
      ∃ out, getRangeBoundingRect mf s e = .ok out) ∧
    (∀ (mf : Mathfield) (off : Int), hrefArgsOk (mf.modelAt off) = true →
      ∃ s, getHref mf off = .ok s) ∧
    (∀ (dta : AtomData) (rest : List AtomData), dta.command = "\\href" →
      dta.args = Option.none → getHrefChain (dta :: rest) = .error ()) ∧
    (∀ (mf : Mathfield) (eb : Bool),
      (computeScaleFactor mf.actualWidth mf.offsetWidth).isFin = true →
      ∃ out, getSelectionBounds mf eb = some out) ∧
    (∀ (o : String) (v : OriginValidator) (w : String),
      validateOrigin o v w = true ∨ validateOrigin o v w = false) := by
  refine ⟨?_, ?_, ?_, ?_, ?_, ?_, ?_, ?_, ?_⟩
  · intro mf s; rfl
  · intro mf atom h; simp [getAtomBounds, h]
  · intro off; rfl
  · intro mf off h; simp [getElementInfo, h]
  · intro mf s e h
    obtain ⟨st', hloop⟩ :=
      grbLoop_ok (rangeIndices s e) ⟨Option.none, Option.none, mf⟩ h
    exact ⟨_, by unfold getRangeBoundingRect; rw [hloop]⟩
  · intro mf off h
    cases hm : mf.modelAt off with
    | none => exact ⟨"", by unfold getHref getHrefAux; rw [hm]⟩
    | some a =>
      have h' : hrefArgsOkChain a.chain = true := by simpa [hrefArgsOk, hm] using h
      exact ⟨getHrefSpecChain a.chain,
        by unfold getHref getHrefAux; rw [hm]; exact getHrefChain_ok a.chain h'⟩
  · intro dta rest h1 h2; simp [getHrefChain, h1, h2]
  · intro mf eb h
    obtain ⟨out, c', hfold, _⟩ := selFold_some mf.selection eb [] mf h
    exact ⟨out, hfold⟩
  · intro o v w; exact Bool.eq_false_or_eq_true _

/-- Witness for C4 on the concrete fixtures. -/
theorem utils_no_throw_witness :
    adjustForScrolling mfX Option.none 1 = Option.none ∧
    (∃ out, getRangeBoundingRect mfX 0 1 = .ok out) ∧
    (∃ s, getHref mfHref 0 = .ok s) ∧
    (∃ out, getSelectionBounds mfX true = some out) := by
  refine ⟨utils_no_throw.1 mfX 1,
    utils_no_throw.2.2.2.2.1 mfX 0 1 ?_,
    utils_no_throw.2.2.2.2.2.1 mfHref 0 ?_,
    utils_no_throw.2.2.2.2.2.2.2.1 mfX true ?_⟩ <;> decide

/-- `Map.set` leaves other keys unchanged. -/
theorem cacheGet_set_ne (c : List (String × Rect)) (j k : String) (v : Rect)
    (h : j ≠ k) : cacheGet (cacheSet c j v) k = cacheGet c k := by
  induction c with
  | nil => simp [cacheSet, cacheGet, h]
  | cons e rest ih =>
    obtain ⟨k0, v0⟩ := e
    by_cases h0 : k0 = j
    · subst h0
      simp [cacheSet, cacheGet, h]
    · by_cases hk : k0 = k <;> simp [cacheSet, cacheGet, h0, hk, ih, Ne.symm h]

/-- `Map.delete` leaves other keys unchanged. -/
theorem cacheGet_del_ne (c : List (String × Rect)) (j k : String)
    (h : j ≠ k) : cacheGet (cacheDel c j) k = cacheGet c k := by
  induction c with
  | nil => simp [cacheDel]
  | cons e rest ih =>
    obtain ⟨k0, v0⟩ := e
    by_cases h0 : k0 = j
    · subst h0
      simp [cacheDel, cacheGet, h, ih, Ne.symm h]
    · by_cases hk : k0 = k <;> simp [cacheDel, cacheGet, h0, hk, ih, Ne.symm h]

/-- Writing through the optional cache at key `j` leaves the entry at any
other key unchanged. -/
theorem cacheEntry_map_set_ne (mf : Mathfield) (j k : String) (v : Rect)
    (h : j ≠ k) :
    cacheEntry { mf with cache := mf.cache.map (fun c => cacheSet c j v) } k =
      cacheEntry mf k := by
  unfold cacheEntry
  cases hc : mf.cache <;> simp [hc, cacheGet_set_ne _ _ _ _ h]

/-- A successful bounds query implies the atom has a non-falsy id, which is
then its effective cache key. -/
theorem getAtomBounds_id_of_some (mf : Mathfield) (a : Atom) (b : Rect)
    (h : (getAtomBounds mf a).1 = some b) :
    ∃ i, a.id = some i ∧ effId a = some i := by
  rcases hid : a.id with _ | i
  · simp [getAtomBounds, hid] at h
  · by_cases hi : i = ""
    · simp [getAtomBounds, hid, hi] at h
    · have hdi : a.data.id = some i := hid
      exact ⟨i, by simp [hid], by unfold effId; rw [hdi]; simp [hi]⟩

/-- The value returned by `getAtomBounds` depends only on the DOM lookup
and the cache entry at the atom's effective key. -/
theorem getAtomBounds_val_congr (mf1 mf2 : Mathfield) (a : Atom)
    (hdom : mf1.dom = mf2.dom)
    (hent : ∀ k, effId a = some k → cacheEntry mf1 k = cacheEntry mf2 k) :
    (getAtomBounds mf1 a).1 = (getAtomBounds mf2 a).1 := by
  rcases hid : a.id with _ | i
  · simp [getAtomBounds, hid]
  · by_cases hi : i = ""
    · simp [getAtomBounds, hid, hi]
    · have hdi : a.data.id = some i := hid
      have hk : effId a = some i := by unfold effId; rw [hdi]; simp [hi]
      have hce := hent i hk
      rcases hcv : cacheEntry mf2 i with _ | r
      · rcases hdv : mf2.dom i with _ | node <;>
          simp [getAtomBounds, hid, hi, hce, hdom, hcv, hdv]
      · simp [getAtomBounds, hid, hi, hce, hdom, hcv]

/-- A bounds query leaves every cache entry other than the atom's own key
unchanged. -/
theorem getAtomBounds_entry_frame (mf : Mathfield) (a : Atom) (k : String)
    (h : effId a ≠ some k) :
    cacheEntry ((getAtomBounds mf a).2) k = cacheEntry mf k := by
  rcases hid : a.id with _ | i
  · simp [getAtomBounds, hid]
  · by_cases hi : i = ""
    · simp [getAtomBounds, hid, hi]
    · have hdi : a.data.id = some i := hid
      have hik : i ≠ k := by
        intro he
        subst he
        exact h (by unfold effId; rw [hdi]; simp [hi])
      rcases hcv : cacheEntry mf i with _ | r
      · rcases hdv : mf.dom i with _ | node
        · simp only [getAtomBounds, hid, hi, hcv, hdv]
          simp only [cacheEntry]
          cases hc : mf.cache <;> simp [hc, cacheGet_del_ne _ _ _ hik]
        · simp only [getAtomBounds, hid, hi, hcv, hdv]
          simp only [cacheEntry]
          cases hc : mf.cache <;> simp [hc, cacheGet_set_ne _ _ _ _ hik]
      · simp [getAtomBounds, hid, hi, hcv]

/-- Main loop invariant of `getRangeBoundingRect`: as long as the offsets
in the remaining range resolve to atoms with pairwise-distinct effective
cache keys, the loop succeeds and its accumulator equals the pure fold of
the union over the bounds each atom has in the INITIAL state — the cache
pollution performed through the aliased accumulator never touches a key
that is still to be queried. -/
theorem grbLoop_union (mf0 : Mathfield) : ∀ (l : List Int) (st : GrbState),
    st.mf.dom = mf0.dom →
    st.mf.modelAt = mf0.modelAt →
    (∀ i ∈ l, (mf0.modelAt i).isSome = true) →
    (∀ i ∈ l, ∀ k, effIdAt mf0 i = some k →
        cacheEntry st.mf k = cacheEntry mf0 k ∧ st.aliasId ≠ some k) →
    (l.map (effIdAt mf0)).Pairwise
      (fun x y => x = Option.none ∨ y = Option.none ∨ x ≠ y) →
    ∃ st', grbLoop st l = .ok st' ∧
      st'.result = (l.map (atomBoundsAt mf0)).foldl unionStep st.result
  | [], st, _, _, _, _, _ => ⟨st, rfl, rfl⟩
  | i :: rest, st, hdom, hmodel, hsome, hinv, hpw => by
    obtain ⟨a, ha⟩ := Option.isSome_iff_exists.mp (hsome i (by simp))
    have ha' : st.mf.modelAt i = some a := by rw [hmodel]; exact ha
    have heff : effIdAt mf0 i = effId a := by simp [effIdAt, ha]
    have hval : (getAtomBounds st.mf a).1 = (getAtomBounds mf0 a).1 :=
      getAtomBounds_val_congr st.mf mf0 a hdom
        (fun k hk => (hinv i (by simp) k (by rw [heff]; exact hk)).1)
    have hab : atomBoundsAt mf0 i = (getAtomBounds mf0 a).1 := by
      simp [atomBoundsAt, ha]
    obtain ⟨c0, hc0⟩ := getAtomBounds_state st.mf a
    rw [List.map_cons, List.pairwise_cons] at hpw
    obtain ⟨hhead, htail⟩ := hpw
    have hne : ∀ (j' : Int), j' ∈ rest → ∀ k, effIdAt mf0 j' = some k →
        effId a ≠ some k := by
      intro j' hj' k hk
      have hrel := hhead (effIdAt mf0 j') (List.mem_map_of_mem _ hj')
      rw [hk, heff] at hrel
      rcases hrel with h1 | h1 | h1
      · rw [h1]; simp
      · simp at h1
      · exact h1
    have hframe : ∀ (j' : Int), j' ∈ rest → ∀ k, effIdAt mf0 j' = some k →
        cacheEntry ((getAtomBounds st.mf a).2) k = cacheEntry mf0 k := by
      intro j' hj' k hk
      rw [getAtomBounds_entry_frame st.mf a k (hne j' hj' k hk)]
      exact (hinv j' (by simp [hj']) k hk).1
    have hdom1 : ((getAtomBounds st.mf a).2).dom = mf0.dom := by
      rw [hc0]; exact hdom
    have hmodel1 : ((getAtomBounds st.mf a).2).modelAt = mf0.modelAt := by
      rw [hc0]; exact hmodel
    have hsome1 : ∀ j' ∈ rest, (mf0.modelAt j').isSome = true :=
      fun j' hj' => hsome j' (by simp [hj'])
    have hfold : ((i :: rest).map (atomBoundsAt mf0)).foldl unionStep st.result =
        (rest.map (atomBoundsAt mf0)).foldl unionStep
          (unionStep st.result (atomBoundsAt mf0 i)) := by
      rw [List.map_cons, List.foldl_cons]
    rcases hbv : (getAtomBounds st.mf a).1 with _ | b
    · -- no bounds for this atom: state updated, accumulator unchanged
      have hstep : grbStep st i =
          .ok { result := st.result, aliasId := st.aliasId,
                mf := (getAtomBounds st.mf a).2 } := by
        simp only [grbStep, ha', hbv]
      have hinv1 : ∀ j' ∈ rest, ∀ k, effIdAt mf0 j' = some k →
          cacheEntry ((getAtomBounds st.mf a).2) k = cacheEntry mf0 k ∧
          st.aliasId ≠ some k := by
        intro j' hj' k hk
        exact ⟨hframe j' hj' k hk, (hinv j' (by simp [hj']) k hk).2⟩
      obtain ⟨st', hloop, hres⟩ :=
        grbLoop_union mf0 rest
          { result := st.result, aliasId := st.aliasId,
            mf := (getAtomBounds st.mf a).2 }
          hdom1 hmodel1 hsome1 hinv1 htail
      refine ⟨st', ?_, ?_⟩
      · simp only [grbLoop, hstep, hloop]
      · rw [hres, hfold, hab, ← hval, hbv]
        rfl
    · -- bounds found; the accumulator absorbs them
      obtain ⟨i0, hid0, heff0⟩ := getAtomBounds_id_of_some st.mf a b hbv
      rcases hres0 : st.result with _ | r
      · -- first rectangle: the accumulator starts aliasing this atom
        have hstep : grbStep st i =
            .ok { result := some b,
                  aliasId := if ((getAtomBounds st.mf a).2).cache.isSome
                    then a.id else Option.none,
                  mf := (getAtomBounds st.mf a).2 } := by
          simp only [grbStep, ha', hbv, hres0]
        have halias1 : ∀ j' ∈ rest, ∀ k, effIdAt mf0 j' = some k →
            (if ((getAtomBounds st.mf a).2).cache.isSome
              then a.id else Option.none) ≠ some k := by
          intro j' hj' k hk
          have h1 : a.id ≠ some k := by
            rw [hid0, ← heff0]
            exact hne j' hj' k hk
          by_cases hcs : ((getAtomBounds st.mf a).2).cache.isSome = true <;>
            simp [hcs, h1]
        have hinv1 : ∀ j' ∈ rest, ∀ k, effIdAt mf0 j' = some k →
            cacheEntry ((getAtomBounds st.mf a).2) k = cacheEntry mf0 k ∧
            (if ((getAtomBounds st.mf a).2).cache.isSome
              then a.id else Option.none) ≠ some k := by
          intro j' hj' k hk
          exact ⟨hframe j' hj' k hk, halias1 j' hj' k hk⟩
        obtain ⟨st', hloop, hres⟩ :=
          grbLoop_union mf0 rest
            { result := some b,
              aliasId := if ((getAtomBounds st.mf a).2).cache.isSome
                then a.id else Option.none,
              mf := (getAtomBounds st.mf a).2 }
            hdom1 hmodel1 hsome1 hinv1 htail
        refine ⟨st', ?_, ?_⟩
        · simp only [grbLoop, hstep, hloop]
        · rw [hres0] at hfold; rw [hres, hfold, hab, ← hval, hbv]
          rfl
      · -- subsequent rectangle: union accumulated, write-through on alias
        rcases hali : st.aliasId with _ | j
        · have hstep : grbStep st i =
              .ok { result := some (rectUnion r b), aliasId := Option.none,
                    mf := (getAtomBounds st.mf a).2 } := by
            simp only [grbStep, ha', hbv, hres0, hali]
          have hinv1 : ∀ j' ∈ rest, ∀ k, effIdAt mf0 j' = some k →
              cacheEntry ((getAtomBounds st.mf a).2) k = cacheEntry mf0 k ∧
              (Option.none : Option String) ≠ some k := by
            intro j' hj' k hk
            exact ⟨hframe j' hj' k hk, by simp⟩
          obtain ⟨st', hloop, hres⟩ :=
            grbLoop_union mf0 rest
              { result := some (rectUnion r b), aliasId := Option.none,
                mf := (getAtomBounds st.mf a).2 }
              hdom1 hmodel1 hsome1 hinv1 htail
          refine ⟨st', ?_, ?_⟩
          · simp only [grbLoop, hstep, hloop]
          · rw [hres0] at hfold; rw [hres, hfold, hab, ← hval, hbv]
            rfl
        · have hstep : grbStep st i =
              .ok { result := some (rectUnion r b), aliasId := some j,
                    mf := { (getAtomBounds st.mf a).2 with
                      cache := ((getAtomBounds st.mf a).2).cache.map
                        (fun c => cacheSet c j (rectUnion r b)) } } := by
            simp only [grbStep, ha', hbv, hres0, hali]
          have hdom2 : ({ (getAtomBounds st.mf a).2 with
              cache := ((getAtomBounds st.mf a).2).cache.map
                (fun c => cacheSet c j (rectUnion r b)) } : Mathfield).dom =
              mf0.dom := hdom1
          have hmodel2 : ({ (getAtomBounds st.mf a).2 with
              cache := ((getAtomBounds st.mf a).2).cache.map
                (fun c => cacheSet c j (rectUnion r b)) } : Mathfield).modelAt =
              mf0.modelAt := hmodel1
          have hinv1 : ∀ j' ∈ rest, ∀ k, effIdAt mf0 j' = some k →
              cacheEntry { (getAtomBounds st.mf a).2 with
                cache := ((getAtomBounds st.mf a).2).cache.map
                  (fun c => cacheSet c j (rectUnion r b)) } k =
                cacheEntry mf0 k ∧
              (some j : Option String) ≠ some k := by
            intro j' hj' k hk
            have halk : st.aliasId ≠ some k := (hinv j' (by simp [hj']) k hk).2
            rw [hali] at halk
            have hjk : j ≠ k := by
              intro hjeq
              exact halk (by rw [hjeq])
            constructor
            · rw [cacheEntry_map_set_ne _ _ _ _ hjk]
              exact hframe j' hj' k hk
            · intro hc
              exact hjk (by injection hc)
          obtain ⟨st', hloop, hres⟩ :=
            grbLoop_union mf0 rest
              { result := some (rectUnion r b), aliasId := some j,
                mf := { (getAtomBounds st.mf a).2 with
                  cache := ((getAtomBounds st.mf a).2).cache.map
                    (fun c => cacheSet c j (rectUnion r b)) } }
              hdom2 hmodel2 hsome1 hinv1 htail
          refine ⟨st', ?_, ?_⟩
          · simp only [grbLoop, hstep, hloop]
          · rw [hres0] at hfold; rw [hres, hfold, hab, ← hval, hbv]
            rfl

/-- Claim C7: over a range whose offsets resolve to atoms with
pairwise-distinct effective cache keys (atom ids are unique in a rendered
mathfield), `getRangeBoundingRect` returns the single rectangle that is the
union — minimum of tops and lefts, maximum of bottoms and rights — of the
bounds of every atom at offset start through end inclusive whose bounds
resolve, with no grouping by branch; and for an empty range (end before
start) it returns the degenerate zero rectangle with the state untouched.
An entirely unresolvable range makes every `atomBoundsAt` entry `none`, so
the same statement yields the zero rectangle. -/
theorem getRangeBoundingRect_spec : ∀ (mf : Mathfield) (s e : Int),
    ((∀ i ∈ rangeIndices s e, (mf.modelAt i).isSome = true) →
      ((rangeIndices s e).map (effIdAt mf)).Pairwise
        (fun x y => x = Option.none ∨ y = Option.none ∨ x ≠ y) →
      ∃ mf', getRangeBoundingRect mf s e =
        .ok ((unionOfBounds ((rangeIndices s e).map (atomBoundsAt mf))).getD
          ⟨0, 0, 0, 0⟩, mf')) ∧
    (e < s → getRangeBoundingRect mf s e = .ok (⟨0, 0, 0, 0⟩, mf)) := by
  intro mf s e
  constructor
  · intro hsome hpw
    obtain ⟨st', hloop, hres⟩ :=
      grbLoop_union mf (rangeIndices s e)
        ⟨Option.none, Option.none, mf⟩ rfl rfl hsome
        (fun i hi k hk => ⟨rfl, by simp⟩) hpw
    refine ⟨st'.mf, ?_⟩
    unfold getRangeBoundingRect
    rw [hloop]
    show Except.ok (st'.result.getD ⟨0, 0, 0, 0⟩, st'.mf) = _
    rw [hres]
    rfl
  · intro hlt
    have hempty : rangeIndices s e = [] := by
      unfold rangeIndices
      have h0 : (e + 1 - s).toNat = 0 := by omega
      rw [h0]
      rfl
    unfold getRangeBoundingRect
    rw [hempty]
    rfl

/-- Witness for C7 on the two-atom fixture (distinct ids "a" and "b"). -/
theorem getRangeBoundingRect_spec_witness :
    (∀ i ∈ rangeIndices 0 1, (mfX.modelAt i).isSome = true) ∧
    (∃ mf', getRangeBoundingRect mfX 0 1 =
      .ok ((unionOfBounds ((rangeIndices 0 1).map (atomBoundsAt mfX))).getD
        ⟨0, 0, 0, 0⟩, mf')) ∧
    getRangeBoundingRect mfX 3 2 = .ok (⟨0, 0, 0, 0⟩, mfX) :=
  ⟨by decide,
   (getRangeBoundingRect_spec mfX 0 1).1 (by decide) (by decide),
   (getRangeBoundingRect_spec mfX 3 2).2 (by decide)⟩
